import Mathlib

set_option maxHeartbeats 1000000

namespace GraphicEditor

/-- Shapes of the editor (class GraphicObject and its subclasses Circle,
Rectangle, Group in src/lb5.cpp).  Every variant carries its integer origin
(x, y); a Circle adds a radius, a Rectangle a width and a height, and a
Group the ordered list of its children (vector children, insertion order). -/
inductive GObj where
  | circle (x y r : Int)
  | rect (x y w h : Int)
  | group (x y : Int) (children : List GObj)

mutual

/-- GraphicObject::containsPoint for each variant.
Circle (lines 34-37): dx*dx + dy*dy <= radius*radius with dx = px - x,
dy = py - y.  Rectangle (lines 51-53): inclusive axis-aligned box test.
Group (lines 75-81): delegates to the children on the point translated by
the group origin, scanning children from last to first. -/
def containsPoint : GObj → Int → Int → Bool
  | .circle x y r, px, py =>
    decide ((px - x) * (px - x) + (py - y) * (py - y) ≤ r * r)
  | .rect x y w h, px, py =>
    decide (x ≤ px) && decide (px ≤ x + w) && decide (y ≤ py) && decide (py ≤ y + h)
  | .group x y cs, px, py => containsScan cs (px - x) (py - y)

/-- The loop of Group::containsPoint (lines 76-79): iterate the children in
reverse insertion order (rbegin..rend) and return true on the first child
containing the translated point.  The recursive call on the tail (the
later-added children) is tried before the head, reproducing the reverse
scan with its short-circuit. -/
def containsScan : List GObj → Int → Int → Bool
  | [], _, _ => false
  | c :: rest, px, py => containsScan rest px py || containsPoint c px py

end

/-- GraphicObject::move (line 20): x += dx; y += dy.  No subclass overrides
it, so a Group moves only its own origin and the children list is kept
untouched. -/
def move : GObj → Int → Int → GObj
  | .circle x y r, dx, dy => .circle (x + dx) (y + dy) r
  | .rect x y w h, dx, dy => .rect (x + dx) (y + dy) w h
  | .group x y cs, dx, dy => .group (x + dx) (y + dy) cs

mutual

/-- The dispatch shared by Group::findDeepest (lines 86-88) and
EditorFacade::findElementAt (lines 166-168): if the matched element is a
Group (dynamic_pointer_cast succeeds) recurse into it with the same point,
otherwise return the element itself. -/
def hitDispatch : GObj → Int → Int → GObj
  | .group x y cs, px, py => findDeepest (.group x y cs) px py
  | .circle x y r, _, _ => .circle x y r
  | .rect x y w h, _, _ => .rect x y w h

/-- Group::findDeepest (lines 83-92): scan the children in reverse
insertion order for the first one containing the point translated into the
local frame; recurse when it is a Group, return it when it is a leaf;
return the group itself (shared_from_this) when no child matches.  A
non-group argument is returned unchanged (the source only ever calls
findDeepest on a Group). -/
def findDeepest : GObj → Int → Int → GObj
  | .group x y cs, px, py =>
    match deepScan cs (px - x) (py - y) with
    | some r => r
    | none => .group x y cs
  | .circle x y r, _, _ => .circle x y r
  | .rect x y w h, _, _ => .rect x y w h

/-- The reverse scan loop shared by Group::findDeepest (lines 84-90) and
EditorFacade::findElementAt (lines 164-170): results from the tail (the
later-added elements) take precedence, reproducing the rbegin..rend
iteration with its early return; the head is only consulted when no later
element matched. -/
def deepScan : List GObj → Int → Int → Option GObj
  | [], _, _ => none
  | c :: rest, px, py =>
    match deepScan rest px py with
    | some r => some r
    | none => if containsPoint c px py then some (hitDispatch c px py) else none

end

/-- EditorFacade::findElementAt (lines 163-172): scan the top-level objects
in reverse insertion order, dispatch into a Group via findDeepest, return
the leaf itself otherwise; none models the nullptr result. -/
def findElementAt (objs : List GObj) (px py : Int) : Option GObj :=
  deepScan objs px py

/-- Discriminator: a Group with an empty children list. -/
def isEmptyGroup : GObj → Bool
  | .group _ _ [] => true
  | _ => false

mutual

/-- Absolute origins of every node of a subtree, the subtree being placed
with its parent frame at (ox, oy): each node contributes its origin
translated through all enclosing group origins (the additive frame
composition of the source). -/
def absOrigins : GObj → Int → Int → List (Int × Int)
  | .circle x y _, ox, oy => [(ox + x, oy + y)]
  | .rect x y _ _, ox, oy => [(ox + x, oy + y)]
  | .group x y cs, ox, oy => (ox + x, oy + y) :: absOriginsList cs (ox + x) (oy + y)

/-- Absolute origins of a list of siblings in their common parent frame. -/
def absOriginsList : List GObj → Int → Int → List (Int × Int)
  | [], _, _ => []
  | c :: rest, ox, oy => absOrigins c ox oy ++ absOriginsList rest ox oy

end

/-- AddCommand::execute (line 118): objects.push_back(obj). -/
def execAdd (objs : List GObj) (obj : GObj) : List GObj := objs ++ [obj]

/-- AddCommand::undo (line 119): if(!objects.empty()) objects.pop_back().
The command ignores which object it holds and removes the last element. -/
def undoAdd (objs : List GObj) (_obj : GObj) : List GObj :=
  if objs.isEmpty then objs else objs.dropLast

/-- EditorFacade state (lines 123-125): the document's top-level objects
and the two history stacks.  The only concrete Command is AddCommand, which
is determined by the shape it appends (its target is always the document
collection), so a stacked command is modelled by that shape. -/
structure Editor where
  objects : List GObj
  undoStack : List GObj
  redoStack : List GObj

/-- Message printed by EditorFacade::undo when the undo stack is empty. -/
def undoEmptyMsg : String := "Немає дій для скасування.\n"

/-- Message printed by EditorFacade::redo when the redo stack is empty. -/
def redoEmptyMsg : String := "Немає дій для повторення.\n"

/-- EditorFacade::addObject (lines 127-132): build the AddCommand, execute
it (append to the document), push it on the undo stack and pop the redo
stack empty. -/
def addObject (e : Editor) (obj : GObj) : Editor :=
  { objects := execAdd e.objects obj
    undoStack := obj :: e.undoStack
    redoStack := [] }

/-- EditorFacade::undo (lines 134-142): when the undo stack is non-empty,
pop its top command, run the command's undo, push it on the redo stack and
report nothing; otherwise leave the state alone and report the
nothing-to-undo message. -/
def undo (e : Editor) : Editor × Option String :=
  match e.undoStack with
  | cmd :: rest =>
    ({ objects := undoAdd e.objects cmd
       undoStack := rest
       redoStack := cmd :: e.redoStack }, none)
  | [] => (e, some undoEmptyMsg)

/-- EditorFacade::redo (lines 144-152): when the redo stack is non-empty,
pop its top command, run the command's execute again, push it back on the
undo stack and report nothing; otherwise leave the state alone and report
the nothing-to-redo message. -/
def redo (e : Editor) : Editor × Option String :=
  match e.redoStack with
  | cmd :: rest =>
    ({ objects := execAdd e.objects cmd
       undoStack := cmd :: e.undoStack
       redoStack := rest }, none)
  | [] => (e, some redoEmptyMsg)

/-- The editor session starts with no objects and empty history. -/
def emptyEditor : Editor :=
  { objects := [], undoStack := [], redoStack := [] }

/-- The operations the menu can issue against the facade. -/
inductive EditorOp where
  | add (s : GObj)
  | undoOp
  | redoOp

/-- One menu operation applied to the editor state. -/
def applyOp (e : Editor) : EditorOp → Editor
  | .add s => addObject e s
  | .undoOp => (undo e).1
  | .redoOp => (redo e).1

/-- The editor state after a sequence of operations from the fresh
session. -/
def runOps (ops : List EditorOp) : Editor := ops.foldl applyOp emptyEditor

/-- Heap node for the pointer-level model of cloning (C++ objects behind
shared_ptr).  A Group node stores the heap addresses of its children
instead of inline subtrees, so that sharing and mutation through one
reference are observable. -/
inductive Node where
  | circle (x y r : Int)
  | rect (x y w h : Int)
  | group (x y : Int) (children : List Nat)

/-- A heap is the list of allocated nodes; the address of a node is its
index. -/
abbrev Heap := List Node

/-- Dereference an address. -/
def nodeAt (h : Heap) (a : Nat) : Option Node := h[a]?

/-- A node stored at address a is well formed when its children were
allocated before it (child addresses strictly below a).  This matches how
the program builds scenes: a shape exists before it is added to a group. -/
def nodeOk (a : Nat) : Node → Bool
  | .group _ _ cs => cs.all (fun c => decide (c < a))
  | _ => true

/-- Check every node of the heap from index k on. -/
def heapWFAux : Nat → List Node → Bool
  | _, [] => true
  | k, n :: rest => nodeOk k n && heapWFAux (k + 1) rest

/-- A heap is well formed when every group points only to earlier
addresses; this rules out cycles, as in the acyclic scenes the program
constructs. -/
def heapWF (h : Heap) : Bool := heapWFAux 0 h

/-- GraphicObject::move at the node level (line 20): shift the origin,
keep everything else, a group keeping its (shared) children addresses. -/
def moveNode : Node → Int → Int → Node
  | .circle x y r, dx, dy => .circle (x + dx) (y + dy) r
  | .rect x y w h, dx, dy => .rect (x + dx) (y + dy) w h
  | .group x y cs, dx, dy => .group (x + dx) (y + dy) cs

/-- In-place mutation obj->move(dx, dy) on the object stored at address b:
only that cell of the heap changes. -/
def moveAt (h : Heap) (b : Nat) (dx dy : Int) : Heap :=
  match nodeAt h b with
  | some n => h.set b (moveNode n dx dy)
  | none => h

/-- The clone operations (Circle::clone line 38-40, Rectangle::clone
54-56, Group::clone 94-99) at the heap level, fused over a list of
addresses and driven by fuel (the source recursion terminates because
well-formed heaps are acyclic).  A leaf clone allocates a fresh copy of
the node; a group clone first deep-clones its children, then allocates a
fresh group referencing only the fresh copies, so no node is shared with
the original.  Fresh nodes are appended at the end of the heap. -/
def cloneAddrs : Nat → Heap → List Nat → Option (Heap × List Nat)
  | _, h, [] => some (h, [])
  | 0, _, _ :: _ => none
  | f + 1, h, a :: rest =>
    match nodeAt h a with
    | none => none
    | some (.circle x y r) =>
      match cloneAddrs f (h ++ [.circle x y r]) rest with
      | some (h₂, rs) => some (h₂, List.length h :: rs)
      | none => none
    | some (.rect x y w hh) =>
      match cloneAddrs f (h ++ [.rect x y w hh]) rest with
      | some (h₂, rs) => some (h₂, List.length h :: rs)
      | none => none
    | some (.group x y cs) =>
      match cloneAddrs f h cs with
      | none => none
      | some (h₁, cs') =>
        match cloneAddrs f (h₁ ++ [.group x y cs']) rest with
        | some (h₂, rs) => some (h₂, List.length h₁ :: rs)
        | none => none

/-- obj->clone() on the object at address a: returns the extended heap and
the address of the fresh deep copy. -/
def cloneAddr (f : Nat) (h : Heap) (a : Nat) : Option (Heap × Nat) :=
  match cloneAddrs f h [a] with
  | some (h', [a']) => some (h', a')
  | _ => none

/-- Address b is reachable from address a: the reflexive-transitive
closure of the child relation of group nodes.  The coordinates reachable
from a shape are exactly the origins of the nodes its traversals touch. -/
inductive Reaches (h : Heap) : Nat → Nat → Prop
  | refl (a : Nat) : Reaches h a a
  | child (a b c : Nat) (x y : Int) (cs : List Nat) :
      nodeAt h a = some (.group x y cs) → b ∈ cs → Reaches h b c → Reaches h a c

/-- Heap extension: the new heap keeps every existing node at its address
and only appends. -/
def HExt (h h' : Heap) : Prop := ∃ t, h' = h ++ t

/-- Every group node stored at an address at or above n points only to
addresses at or above n (and below itself).  The nodes a clone allocates
satisfy this with n the length of the pre-clone heap: the fresh subgraph
never points back into the original. -/
def FreshClosed (n : Nat) (h' : Heap) : Prop :=
  ∀ b, n ≤ b → ∀ x y cs, nodeAt h' b = some (.group x y cs) →
    ∀ c ∈ cs, n ≤ c ∧ c < b

/-- Claim C1: for every document state and every shape s, addObject(s)
followed by undo() leaves the document's top-level shape sequence exactly
equal to what it was before the addObject; a subsequent redo() appends s
again as the last element, equal by value to the original. -/
theorem c1_add_undo_redo_round_trip (e : Editor) (s : GObj) :
    ((undo (addObject e s)).1).objects = e.objects ∧
    ((redo ((undo (addObject e s)).1)).1).objects = e.objects ++ [s] := by
  constructor
  · simp [addObject, undo, undoAdd, execAdd]
  · simp [addObject, undo, redo, undoAdd, execAdd]

/-- Claim C2: every addObject clears the redo stack entirely; after
addObject(a), undo(), addObject(b) the redo stack is empty and a
subsequent redo() reports the nothing-to-redo message while changing
nothing, so a is never re-appended. -/
theorem c2_addObject_clears_redo (e : Editor) (a b : GObj) :
    (addObject e a).redoStack = [] ∧
    (addObject ((undo (addObject e a)).1) b).redoStack = [] ∧
    redo (addObject ((undo (addObject e a)).1) b) =
      (addObject ((undo (addObject e a)).1) b, some redoEmptyMsg) := by
  exact ⟨rfl, rfl, rfl⟩

/-- Claim C6: undo() on an empty undo stack and redo() on an empty redo
stack are non-fatal no-ops: the descriptive message is reported and the
whole editor state (document and both stacks) is unchanged. -/
theorem c6_history_underflow_noop (e : Editor) :
    (e.undoStack = [] → undo e = (e, some undoEmptyMsg)) ∧
    (e.redoStack = [] → redo e = (e, some redoEmptyMsg)) := by
  constructor
  · intro h; simp [undo, h]
  · intro h; simp [redo, h]

/-- Witness for C6 at the fresh editor, whose stacks are empty. -/
theorem c6_history_underflow_noop_witness :
    emptyEditor.undoStack = [] ∧ emptyEditor.redoStack = [] ∧
    undo emptyEditor = (emptyEditor, some undoEmptyMsg) ∧
    redo emptyEditor = (emptyEditor, some redoEmptyMsg) := by
  have h := c6_history_underflow_noop emptyEditor
  exact ⟨rfl, rfl, h.1 rfl, h.2 rfl⟩

/-- Claim C5: a Group at (gx, gy) whose only child is a Circle at local
(cx, cy) with radius r > 0 contains the query point (gx+cx, gy+cy); it
does not contain any point whose squared distance from (gx+cx, gy+cy)
exceeds r squared. -/
theorem c5_group_circle_containment (gx gy cx cy r px py : Int) (_hr : 0 < r) :
    containsPoint (.group gx gy [.circle cx cy r]) (gx + cx) (gy + cy) = true ∧
    ((px - (gx + cx)) * (px - (gx + cx)) + (py - (gy + cy)) * (py - (gy + cy)) > r * r →
      containsPoint (.group gx gy [.circle cx cy r]) px py = false) := by
  constructor
  · simp only [containsPoint, containsScan, Bool.false_or, decide_eq_true_eq]
    nlinarith [mul_self_nonneg r]
  · intro hgt
    simp only [containsPoint, containsScan, Bool.false_or, decide_eq_false_iff_not]
    intro habs
    nlinarith [hgt, habs]

/-- Witness for C5: the group at (2,2) with the circle at local (1,5),
radius 2, contains (3,7) and misses (10,10). -/
theorem c5_group_circle_containment_witness :
    containsPoint (.group 2 2 [.circle 1 5 2]) 3 7 = true ∧
    containsPoint (.group 2 2 [.circle 1 5 2]) 10 10 = false := by
  have h := c5_group_circle_containment 2 2 1 5 2 10 10 (by decide)
  exact ⟨h.1, h.2 (by decide)⟩

mutual

/-- Placing a subtree with its parent frame shifted by (dx, dy) shifts
every absolute origin of the subtree by (dx, dy). -/
theorem absOrigins_shift (g : GObj) (ox oy dx dy : Int) :
    absOrigins g (ox + dx) (oy + dy) =
      (absOrigins g ox oy).map (fun p => (p.1 + dx, p.2 + dy)) := by
  match g with
  | .circle x y r =>
    simp only [absOrigins, List.map_cons, List.map_nil, List.cons.injEq, Prod.mk.injEq,
      and_true]
    constructor <;> ring
  | .rect x y w h =>
    simp only [absOrigins, List.map_cons, List.map_nil, List.cons.injEq, Prod.mk.injEq,
      and_true]
    constructor <;> ring
  | .group x y cs =>
    simp only [absOrigins, List.map_cons, List.cons.injEq, Prod.mk.injEq]
    refine ⟨⟨by ring, by ring⟩, ?_⟩
    rw [show ox + dx + x = ox + x + dx by ring, show oy + dy + y = oy + y + dy by ring]
    exact absOriginsList_shift cs (ox + x) (oy + y) dx dy

/-- The list version of absOrigins_shift. -/
theorem absOriginsList_shift (l : List GObj) (ox oy dx dy : Int) :
    absOriginsList l (ox + dx) (oy + dy) =
      (absOriginsList l ox oy).map (fun p => (p.1 + dx, p.2 + dy)) := by
  match l with
  | [] => simp [absOriginsList]
  | c :: rest =>
    simp only [absOriginsList, List.map_append]
    rw [absOrigins_shift c ox oy dx dy, absOriginsList_shift rest ox oy dx dy]

end

/-- Claim C8: moving a Group changes only its own origin, from (x, y) to
(x+dx, y+dy), with the children list (hence every stored descendant
coordinate and size) literally unchanged; consequently every absolute
origin in the subtree shifts rigidly by (dx, dy) in the parent frame. -/
theorem c8_group_move_rigid (x y : Int) (cs : List GObj) (dx dy : Int) :
    move (.group x y cs) dx dy = .group (x + dx) (y + dy) cs ∧
    ∀ ox oy, absOrigins (move (.group x y cs) dx dy) ox oy =
      (absOrigins (.group x y cs) ox oy).map (fun p => (p.1 + dx, p.2 + dy)) := by
  refine ⟨rfl, fun ox oy => ?_⟩
  have h := absOrigins_shift (.group x y cs) ox oy dx dy
  rw [← h]
  show absOrigins (.group (x + dx) (y + dy) cs) ox oy
      = absOrigins (.group x y cs) (ox + dx) (oy + dy)
  simp only [absOrigins, List.cons.injEq, Prod.mk.injEq]
  refine ⟨⟨by ring, by ring⟩, ?_⟩
  rw [show ox + (x + dx) = ox + dx + x by ring, show oy + (y + dy) = oy + dy + y by ring]

/-- The reverse scan of Group::containsPoint returns true exactly when
some child contains the translated point (order is irrelevant to the
boolean result). -/
theorem containsScan_eq_any (l : List GObj) (px py : Int) :
    containsScan l px py = l.any (fun c => containsPoint c px py) := by
  induction l with
  | nil => simp [containsScan]
  | cons c rest ih => simp [containsScan, List.any_cons, ih, Bool.or_comm]

/-- When some child of the scanned list contains the point, the deep scan
finds a hit. -/
theorem deepScan_isSome_of_containsScan (l : List GObj) (px py : Int)
    (h : containsScan l px py = true) : (deepScan l px py).isSome = true := by
  induction l with
  | nil => simp [containsScan] at h
  | cons c rest ih =>
    rw [containsScan, Bool.or_eq_true] at h
    rw [deepScan]
    cases hd : deepScan rest px py with
    | some r => simp
    | none =>
      rcases h with h | h
      · have hsome := ih h
        rw [hd] at hsome
        simp at hsome
      · simp [h]

mutual

/-- Dispatching on a shape that contains the point never yields a Group
with no children: a leaf is returned as is, and a containing Group
recurses into a child that itself contains the translated point. -/
theorem hitDispatch_not_emptyGroup (c : GObj) (px py : Int)
    (h : containsPoint c px py = true) :
    isEmptyGroup (hitDispatch c px py) = false := by
  match c with
  | .circle x y r => simp [hitDispatch, isEmptyGroup]
  | .rect x y w hh => simp [hitDispatch, isEmptyGroup]
  | .group x y cs =>
    rw [containsPoint] at h
    have hsome := deepScan_isSome_of_containsScan cs (px - x) (py - y) h
    rw [hitDispatch, findDeepest]
    cases hd : deepScan cs (px - x) (py - y) with
    | some r => exact deepScan_not_emptyGroup cs (px - x) (py - y) r hd
    | none => rw [hd] at hsome; simp at hsome

/-- Any hit produced by the deep scan is a leaf or a Group with at least
one child. -/
theorem deepScan_not_emptyGroup (l : List GObj) (px py : Int) (r : GObj)
    (h : deepScan l px py = some r) : isEmptyGroup r = false := by
  match l with
  | [] => rw [deepScan] at h; exact absurd h (by simp)
  | c :: rest =>
    rw [deepScan] at h
    cases hd : deepScan rest px py with
    | some r₀ =>
      rw [hd] at h
      simp only [Option.some.injEq] at h
      subst h
      exact deepScan_not_emptyGroup rest px py r₀ hd
    | none =>
      rw [hd] at h
      by_cases hc : containsPoint c px py = true
      · rw [if_pos hc] at h
        simp only [Option.some.injEq] at h
        subst h
        exact hitDispatch_not_emptyGroup c px py hc
      · rw [if_neg hc] at h
        exact absurd h (by simp)

end

/-- Claim C10: a Group has no intrinsic extent.  An empty Group contains
no point; a Group contains a point exactly when some child contains the
translated point; and the document hit-test never returns an empty Group
(the deep lookup never does either, since it only enters shapes that
contain the point). -/
theorem c10_empty_group_never_hit :
    (∀ x y px py : Int, containsPoint (.group x y []) px py = false) ∧
    (∀ (x y : Int) (cs : List GObj) (px py : Int),
      containsPoint (.group x y cs) px py =
        cs.any (fun c => containsPoint c (px - x) (py - y))) ∧
    (∀ (objs : List GObj) (px py : Int),
      Option.all (fun g => !isEmptyGroup g) (findElementAt objs px py) = true) := by
  refine ⟨?_, ?_, ?_⟩
  · intro x y px py
    rw [containsPoint, containsScan]
  · intro x y cs px py
    rw [containsPoint, containsScan_eq_any]
  · intro objs px py
    rw [findElementAt]
    cases hd : deepScan objs px py with
    | some r => simp [Option.all, deepScan_not_emptyGroup objs px py r hd]
    | none => simp [Option.all]

/-- One applyOp step preserves the invariant that the document holds
exactly the shapes of the pending undo commands, oldest first. -/
theorem applyOp_preserves_inv (e : Editor) (op : EditorOp)
    (h : e.objects = e.undoStack.reverse) :
    (applyOp e op).objects = (applyOp e op).undoStack.reverse := by
  cases op with
  | add s => simp [applyOp, addObject, execAdd, h]
  | undoOp =>
    cases hs : e.undoStack with
    | nil => simp [applyOp, undo, hs, hs ▸ h]
    | cons cmd rest =>
      simp only [applyOp, undo, hs, undoAdd, h]
      simp [List.dropLast_concat]
  | redoOp =>
    cases hs : e.redoStack with
    | nil => simpa [applyOp, redo, hs] using h
    | cons cmd rest => simp [applyOp, redo, hs, execAdd, h]

/-- The invariant holds in every state reached from an initial state that
satisfies it. -/
theorem foldl_applyOp_inv (ops : List EditorOp) :
    ∀ e : Editor, e.objects = e.undoStack.reverse →
      (ops.foldl applyOp e).objects = (ops.foldl applyOp e).undoStack.reverse := by
  induction ops with
  | nil => intro e h; simpa using h
  | cons op rest ih => intro e h; exact ih _ (applyOp_preserves_inv e op h)

/-- Claim C9: in every state reachable from the empty editor by addObject,
undo and redo, the document equals the reverse of the undo stack; hence
whenever undo() pops a command, the document is non-empty, its last
element is exactly the shape that command appended, and the command's
undo removes precisely that last element (the empty-collection guard in
AddCommand::undo is never the taken branch). -/
theorem c9_undo_pops_matching_last (ops : List EditorOp) :
    (runOps ops).objects = (runOps ops).undoStack.reverse ∧
    (∀ cmd rest, (runOps ops).undoStack = cmd :: rest →
      (runOps ops).objects.isEmpty = false ∧
      (runOps ops).objects.getLast? = some cmd ∧
      undoAdd (runOps ops).objects cmd = (runOps ops).objects.dropLast) := by
  have hinv : (runOps ops).objects = (runOps ops).undoStack.reverse :=
    foldl_applyOp_inv ops emptyEditor rfl
  refine ⟨hinv, fun cmd rest hs => ?_⟩
  rw [hinv, hs]
  refine ⟨by simp, by simp [List.getLast?_concat], ?_⟩
  rw [undoAdd]
  simp

/-- Witness for C9 after a single add: the undo stack holds the added
circle, the document is non-empty and ends with that circle. -/
theorem c9_undo_pops_matching_last_witness :
    (runOps [EditorOp.add (GObj.circle 0 0 1)]).objects.isEmpty = false ∧
    (runOps [EditorOp.add (GObj.circle 0 0 1)]).objects.getLast? =
      some (GObj.circle 0 0 1) := by
  have h := (c9_undo_pops_matching_last [EditorOp.add (GObj.circle 0 0 1)]).2
      (GObj.circle 0 0 1) [] rfl
  exact ⟨h.1, h.2.1⟩

/-- The deep scan is the first match of the reversed child list, followed
by the leaf-or-recurse dispatch. -/
theorem deepScan_eq_find (l : List GObj) (px py : Int) :
    deepScan l px py =
      Option.map (fun c => hitDispatch c px py)
        (List.find? (fun c => containsPoint c px py) l.reverse) := by
  induction l with
  | nil => rw [deepScan]; simp
  | cons c rest ih =>
    rw [deepScan, ih, List.reverse_cons, List.find?_append]
    cases hf : List.find? (fun c => containsPoint c px py) rest.reverse with
    | some x => simp
    | none =>
      cases hc : containsPoint c px py <;> simp [List.find?, hc]

/-- Claim C4: findDeepest on a Group translates the query point into the
local frame by subtracting the group origin, looks for the first child of
the reversed insertion order whose containsPoint holds on the translated
point, recurses with the translated point when that child is a Group,
returns the child directly when it is a leaf, and returns the group itself
when no child matches. -/
theorem c4_findDeepest_reverse_first_match (x y : Int) (cs : List GObj) (px py : Int) :
    findDeepest (.group x y cs) px py =
      match List.find? (fun c => containsPoint c (px - x) (py - y)) cs.reverse with
      | some (.group cx cy ccs) => findDeepest (.group cx cy ccs) (px - x) (py - y)
      | some (.circle cx cy r) => .circle cx cy r
      | some (.rect cx cy w h) => .rect cx cy w h
      | none => .group x y cs := by
  rw [findDeepest, deepScan_eq_find]
  cases hf : List.find? (fun c => containsPoint c (px - x) (py - y)) cs.reverse with
  | some c => cases c <;> simp [hitDispatch]
  | none => simp

/-- Counterexample to claim C3 as stated: with A the rectangle at (0,0) of
size 10 by 10 and B the group at (0,0) holding the circle at (1,1) with
radius 1, the point (1,1) lies in both, yet the document hit-test returns
the circle inside B, not B itself, because a matched Group is resolved
through findDeepest. -/
theorem c3_counterexample_group_resolves_inside :
    containsPoint (.rect 0 0 10 10) 1 1 = true ∧
    containsPoint (.group 0 0 [.circle 1 1 1]) 1 1 = true ∧
    findElementAt [.rect 0 0 10 10, .group 0 0 [.circle 1 1 1]] 1 1 =
      some (.circle 1 1 1) ∧
    GObj.circle 1 1 1 ≠ GObj.group 0 0 [.circle 1 1 1] := by
  refine ⟨?_, ?_, ?_, by simp⟩
  · simp [containsPoint]
  · simp [containsPoint, containsScan]
  · rw [findElementAt]
    rw [deepScan, deepScan, deepScan]
    simp [containsPoint, containsScan, hitDispatch, findDeepest, deepScan]

/-- Claim C3 amended: top-level shapes are scanned in reverse insertion
order and the first containing shape wins, so with A added before B and
the point inside B, the result is resolved from B and never from A: it is
B itself when B is a leaf, and the result of B's findDeepest when B is a
Group. -/
theorem c3_later_added_wins (L : List GObj) (A B : GObj) (px py : Int)
    (hB : containsPoint B px py = true) :
    findElementAt (L ++ [A, B]) px py = some (hitDispatch B px py) ∧
    (∀ bx by' br, B = .circle bx by' br → findElementAt (L ++ [A, B]) px py = some B) ∧
    (∀ bx by' bw bh, B = .rect bx by' bw bh → findElementAt (L ++ [A, B]) px py = some B) := by
  have key : ∀ l : List GObj, deepScan (l ++ [A, B]) px py = some (hitDispatch B px py) := by
    intro l
    induction l with
    | nil =>
      rw [List.nil_append, deepScan, deepScan, deepScan]
      simp [hB]
    | cons c rest ih =>
      rw [List.cons_append, deepScan, ih]
  refine ⟨key L, ?_, ?_⟩
  · intro bx by' br hBeq
    rw [findElementAt, key L, hBeq, hitDispatch]
  · intro bx by' bw bh hBeq
    rw [findElementAt, key L, hBeq, hitDispatch]

/-- Witness for the amended C3: the rectangle A at (0,0) and the circle B
at (5,5) with radius 2 overlap at (5,5); the hit-test on the two-shape
document returns B. -/
theorem c3_later_added_wins_witness :
    findElementAt [GObj.rect 0 0 10 10, GObj.circle 5 5 2] 5 5 =
      some (GObj.circle 5 5 2) := by
  have h := (c3_later_added_wins [] (GObj.rect 0 0 10 10) (GObj.circle 5 5 2) 5 5
      (by simp [containsPoint])).2.1 5 5 2 rfl
  simpa using h

/-- A successful dereference implies the address is allocated. -/
theorem nodeAt_lt_length {h : Heap} {a : Nat} {n : Node} (hn : nodeAt h a = some n) :
    a < h.length := by
  by_contra hge
  rw [nodeAt, List.getElem?_eq_none (Nat.le_of_not_lt hge)] at hn
  exact absurd hn (by simp)

/-- An unallocated address dereferences to none. -/
theorem nodeAt_ge_length {h : Heap} {a : Nat} (hge : h.length ≤ a) : nodeAt h a = none := by
  rw [nodeAt]
  exact List.getElem?_eq_none hge

/-- Heap extension is reflexive. -/
theorem HExt.self (h : Heap) : HExt h h := ⟨[], by simp⟩

/-- Heap extension is transitive. -/
theorem HExt.trans {h₁ h₂ h₃ : Heap} (a : HExt h₁ h₂) (b : HExt h₂ h₃) : HExt h₁ h₃ := by
  obtain ⟨t₁, rfl⟩ := a
  obtain ⟨t₂, rfl⟩ := b
  exact ⟨t₁ ++ t₂, by simp⟩

/-- Appending extends the heap. -/
theorem HExt.append (h : Heap) (t : List Node) : HExt h (h ++ t) := ⟨t, rfl⟩

/-- Extension can only grow the heap. -/
theorem HExt.length_le {h h' : Heap} (e : HExt h h') : h.length ≤ h'.length := by
  obtain ⟨t, rfl⟩ := e
  simp

/-- Extension never changes an already-allocated node. -/
theorem nodeAt_HExt {h h' : Heap} {b : Nat} (e : HExt h h') (hb : b < h.length) :
    nodeAt h' b = nodeAt h b := by
  obtain ⟨t, rfl⟩ := e
  rw [nodeAt, nodeAt, List.getElem?_append_left hb]

/-- The node appended at the end of the heap sits at the old length. -/
theorem nodeAt_concat_self (h : Heap) (n : Node) : nodeAt (h ++ [n]) h.length = some n := by
  rw [nodeAt]
  exact List.getElem?_concat_length h n

/-- heapWFAux checks the node stored at offset i against index k + i. -/
theorem heapWFAux_get : ∀ (k : Nat) (l : List Node) (i : Nat) (n : Node),
    heapWFAux k l = true → l[i]? = some n → nodeOk (k + i) n = true := by
  intro k l
  induction l generalizing k with
  | nil => intro i n _ hg; simp at hg
  | cons m rest ih =>
    intro i n hwf hg
    rw [heapWFAux, Bool.and_eq_true] at hwf
    cases i with
    | zero =>
      simp only [List.getElem?_cons_zero, Option.some.injEq] at hg
      subst hg
      simpa using hwf.1
    | succ j =>
      have hj := ih (k + 1) j n hwf.2 (by simpa using hg)
      rw [show k + (j + 1) = (k + 1) + j by omega]
      exact hj

/-- In a well-formed heap every group points strictly below itself. -/
theorem heapWF_children_lt {h : Heap} {a : Nat} {x y : Int} {cs : List Nat}
    (hwf : heapWF h = true) (hn : nodeAt h a = some (.group x y cs)) :
    ∀ c ∈ cs, c < a := by
  have hok := heapWFAux_get 0 h a (Node.group x y cs) hwf hn
  rw [Nat.zero_add, nodeOk] at hok
  intro c hc
  have := List.all_eq_true.mp hok c hc
  simpa using this

/-- A heap whose addresses at or above n are all unallocated is vacuously
fresh-closed at n. -/
theorem freshClosed_of_none {h' : Heap} {n : Nat}
    (hall : ∀ b, n ≤ b → nodeAt h' b = none) : FreshClosed n h' := by
  intro b hb x y cs hn
  rw [hall b hb] at hn
  exact absurd hn (by simp)

/-- Any heap is fresh-closed at its own length. -/
theorem freshClosed_self (h : Heap) : FreshClosed h.length h :=
  freshClosed_of_none (fun _ hb => nodeAt_ge_length hb)

/-- Fresh-closedness composes across appending one node whose children
already satisfy the bound, followed by any fresh-closed extension. -/
theorem freshClosed_extend_one {n : Nat} {h₁ h₂ : Heap}
    (hfc : FreshClosed n h₁) (e : HExt h₁ h₂)
    (hnode : ∀ x y cs, nodeAt h₂ h₁.length = some (.group x y cs) →
      ∀ c ∈ cs, n ≤ c ∧ c < h₁.length)
    (hfc₂ : FreshClosed (h₁.length + 1) h₂) (hle : n ≤ h₁.length) :
    FreshClosed n h₂ := by
  intro b hb x y cs hn c hc
  rcases Nat.lt_trichotomy b h₁.length with hlt | heq | hgt
  · rw [nodeAt_HExt e hlt] at hn
    exact hfc b hb x y cs hn c hc
  · subst heq
    have := hnode x y cs hn c hc
    exact ⟨this.1, this.2⟩
  · have := hfc₂ b (by omega) x y cs hn c hc
    exact ⟨by omega, this.2⟩

/-- The clone invariant: a successful cloneAddrs only appends to the heap,
returns fresh addresses (at or above the old length, below the new one),
and every node it allocates points only to other fresh nodes allocated
before it.  In particular no fresh node ever points into the original
subgraph. -/
theorem cloneAddrs_spec :
    ∀ (f : Nat) (h : Heap) (as : List Nat) (h' : Heap) (rs : List Nat),
      cloneAddrs f h as = some (h', rs) →
      HExt h h' ∧ (∀ r ∈ rs, h.length ≤ r ∧ r < h'.length) ∧
      FreshClosed h.length h' := by
  intro f
  induction f with
  | zero =>
    intro h as h' rs hc
    cases as with
    | nil =>
      rw [cloneAddrs] at hc
      simp only [Option.some.injEq, Prod.mk.injEq] at hc
      obtain ⟨rfl, rfl⟩ := hc
      exact ⟨HExt.self h, by simp, freshClosed_self h⟩
    | cons a rest =>
      rw [cloneAddrs] at hc
      exact absurd hc (by simp)
  | succ f ih =>
    intro h as h' rs hc
    cases as with
    | nil =>
      rw [cloneAddrs] at hc
      simp only [Option.some.injEq, Prod.mk.injEq] at hc
      obtain ⟨rfl, rfl⟩ := hc
      exact ⟨HExt.self h, by simp, freshClosed_self h⟩
    | cons a rest =>
      rw [cloneAddrs] at hc
      split at hc
      · exact absurd hc (by simp)
      · rename_i x y r hna
        split at hc
        · rename_i h₂ rs' hr2
          simp only [Option.some.injEq, Prod.mk.injEq] at hc
          obtain ⟨rfl, rfl⟩ := hc
          obtain ⟨e₂, hb₂, hf₂⟩ := ih (h ++ [Node.circle x y r]) rest h₂ rs' hr2
          have hlen : (h ++ [Node.circle x y r]).length = h.length + 1 := by simp
          have hext : HExt h h₂ := (HExt.append h [Node.circle x y r]).trans e₂
          have hlt : h.length < h₂.length := by
            have := e₂.length_le
            omega
          refine ⟨hext, ?_, ?_⟩
          · intro r' hr'
            rcases List.mem_cons.mp hr' with rfl | hmem
            · exact ⟨Nat.le_refl _, hlt⟩
            · have := hb₂ r' hmem
              constructor <;> omega
          · refine freshClosed_extend_one (freshClosed_self h) hext ?_ ?_ (Nat.le_refl _)
            · intro x' y' cs' hcontra
              have hread : nodeAt h₂ h.length = some (Node.circle x y r) := by
                rw [nodeAt_HExt e₂ (by simp), nodeAt_concat_self]
              rw [hread] at hcontra
              exact absurd hcontra (by simp)
            · rw [hlen] at hf₂
              exact hf₂
        · exact absurd hc (by simp)
      · rename_i x y w hh hna
        split at hc
        · rename_i h₂ rs' hr2
          simp only [Option.some.injEq, Prod.mk.injEq] at hc
          obtain ⟨rfl, rfl⟩ := hc
          obtain ⟨e₂, hb₂, hf₂⟩ := ih (h ++ [Node.rect x y w hh]) rest h₂ rs' hr2
          have hlen : (h ++ [Node.rect x y w hh]).length = h.length + 1 := by simp
          have hext : HExt h h₂ := (HExt.append h [Node.rect x y w hh]).trans e₂
          have hlt : h.length < h₂.length := by
            have := e₂.length_le
            omega
          refine ⟨hext, ?_, ?_⟩
          · intro r' hr'
            rcases List.mem_cons.mp hr' with rfl | hmem
            · exact ⟨Nat.le_refl _, hlt⟩
            · have := hb₂ r' hmem
              constructor <;> omega
          · refine freshClosed_extend_one (freshClosed_self h) hext ?_ ?_ (Nat.le_refl _)
            · intro x' y' cs' hcontra
              have hread : nodeAt h₂ h.length = some (Node.rect x y w hh) := by
                rw [nodeAt_HExt e₂ (by simp), nodeAt_concat_self]
              rw [hread] at hcontra
              exact absurd hcontra (by simp)
            · rw [hlen] at hf₂
              exact hf₂
        · exact absurd hc (by simp)
      · rename_i x y cs hna
        split at hc
        · exact absurd hc (by simp)
        · rename_i h₁ cs' h1
          split at hc
          · rename_i h₂ rs' h2
            simp only [Option.some.injEq, Prod.mk.injEq] at hc
            obtain ⟨rfl, rfl⟩ := hc
            obtain ⟨e₁, hb₁, hf₁⟩ := ih h cs h₁ cs' h1
            obtain ⟨e₂, hb₂, hf₂⟩ := ih (h₁ ++ [Node.group x y cs']) rest h₂ rs' h2
            have hlen : (h₁ ++ [Node.group x y cs']).length = h₁.length + 1 := by simp
            have hext₁ : HExt h₁ h₂ := (HExt.append h₁ [Node.group x y cs']).trans e₂
            have hext : HExt h h₂ := e₁.trans hext₁
            have hle₁ : h.length ≤ h₁.length := e₁.length_le
            have hlt : h₁.length < h₂.length := by
              have := e₂.length_le
              omega
            refine ⟨hext, ?_, ?_⟩
            · intro r' hr'
              rcases List.mem_cons.mp hr' with rfl | hmem
              · exact ⟨hle₁, hlt⟩
              · have := hb₂ r' hmem
                rw [hlen] at this
                constructor <;> omega
            · refine freshClosed_extend_one hf₁ hext₁ ?_ ?_ hle₁
              · intro x' y' cs'' hread
                have hself : nodeAt h₂ h₁.length = some (Node.group x y cs') := by
                  rw [nodeAt_HExt e₂ (by simp), nodeAt_concat_self]
                rw [hself] at hread
                simp only [Option.some.injEq, Node.group.injEq] at hread
                obtain ⟨-, -, rfl⟩ := hread
                intro c hcm
                exact hb₁ c hcm
              · rw [hlen] at hf₂
                exact hf₂
          · exact absurd hc (by simp)

/-- Reachability from a fresh address stays inside the fresh part of the
heap. -/
theorem reaches_fresh {n : Nat} {h' : Heap} (hfc : FreshClosed n h')
    {a b : Nat} (ha : n ≤ a) (hr : Reaches h' a b) : n ≤ b := by
  induction hr with
  | refl a => exact ha
  | child a b' c x y cs hn hm _ ih =>
    exact ih ((hfc a ha x y cs hn b' hm).1)

/-- Reachability from an original address of a well-formed heap never
leaves the original part, even after the heap has been extended. -/
theorem reaches_old {h h' : Heap} (hwf : heapWF h = true) (e : HExt h h')
    {a b : Nat} (ha : a < h.length) (hr : Reaches h' a b) : b < h.length := by
  induction hr with
  | refl a => exact ha
  | child a b' c x y cs hn hm _ ih =>
    rw [nodeAt_HExt e ha] at hn
    have hlt := heapWF_children_lt hwf hn b' hm
    exact ih (by omega)

/-- Moving the object at one address never changes the node stored at a
different address. -/
theorem nodeAt_moveAt_ne {h : Heap} {b c : Nat} (hne : b ≠ c) (dx dy : Int) :
    nodeAt (moveAt h b dx dy) c = nodeAt h c := by
  rw [moveAt]
  cases hn : nodeAt h b with
  | none => rfl
  | some n =>
    rw [nodeAt, nodeAt]
    exact List.getElem?_set_ne hne

/-- Claim C7: clone() returns a fully independent deep copy.  On a
well-formed heap, after cloning the object at address a, moving the
original or any node reachable from it changes nothing reachable from the
clone, and moving the clone or any node reachable from it changes nothing
reachable from the original. -/
theorem c7_clone_independence (f : Nat) (h h' : Heap) (a a' b c : Nat) (dx dy : Int)
    (hwf : heapWF h = true) (ha : a < h.length)
    (hcl : cloneAddr f h a = some (h', a'))
    (hrb : Reaches h' a b) (hrc : Reaches h' a' c) :
    nodeAt (moveAt h' b dx dy) c = nodeAt h' c ∧
    nodeAt (moveAt h' c dx dy) b = nodeAt h' b := by
  rw [cloneAddr] at hcl
  cases hm : cloneAddrs f h [a] with
  | none => rw [hm] at hcl; exact absurd hcl (by simp)
  | some pr =>
    obtain ⟨h₁, rs⟩ := pr
    rw [hm] at hcl
    match rs, hcl with
    | [r], hcl =>
      simp only [Option.some.injEq, Prod.mk.injEq] at hcl
      obtain ⟨rfl, rfl⟩ := hcl
      obtain ⟨hext, hbnd, hfc⟩ := cloneAddrs_spec f h [a] h₁ [r] hm
      have ha' : h.length ≤ r := (hbnd r (by simp)).1
      have hb : b < h.length := reaches_old hwf hext ha hrb
      have hc' : h.length ≤ c := reaches_fresh hfc ha' hrc
      have hne : b ≠ c := by omega
      exact ⟨nodeAt_moveAt_ne hne dx dy, nodeAt_moveAt_ne (Ne.symm hne) dx dy⟩

/-- Witness for C7: the heap holding a circle and a group pointing at it;
cloning the group with fuel 2 appends a fresh circle and a fresh group,
and moving the original circle leaves the fresh circle untouched, and the
other way round. -/
theorem c7_clone_independence_witness :
    nodeAt (moveAt [Node.circle 1 5 2, Node.group 2 2 [0],
        Node.circle 1 5 2, Node.group 2 2 [2]] 0 5 7) 2 =
      nodeAt [Node.circle 1 5 2, Node.group 2 2 [0],
        Node.circle 1 5 2, Node.group 2 2 [2]] 2 ∧
    nodeAt (moveAt [Node.circle 1 5 2, Node.group 2 2 [0],
        Node.circle 1 5 2, Node.group 2 2 [2]] 2 5 7) 0 =
      nodeAt [Node.circle 1 5 2, Node.group 2 2 [0],
        Node.circle 1 5 2, Node.group 2 2 [2]] 0 := by
  refine c7_clone_independence 2 [Node.circle 1 5 2, Node.group 2 2 [0]]
      [Node.circle 1 5 2, Node.group 2 2 [0], Node.circle 1 5 2, Node.group 2 2 [2]]
      1 3 0 2 5 7 rfl (by decide) rfl ?_ ?_
  · exact Reaches.child 1 0 0 2 2 [0] rfl (by simp) (Reaches.refl 0)
  · exact Reaches.child 3 2 2 2 2 [2] rfl (by simp) (Reaches.refl 2)

end GraphicEditor
